/-
Verification of the crossword constraint-satisfaction solver
(src/crossword/generate.py, class CrosswordCreator).

The Python code is shallowly embedded: the mutable domain store
(self.domains, a dict from variable to set of words) becomes an explicit
state of type Var -> List Word that is threaded through the functions;
the mutable assignment dict becomes an association list threaded through
the backtracking search.  Words are lists of characters; the character
access w[i] of Python is modelled by List.getD with a fixed default
character, uniformly in every function that indexes into a word.
Python sets are modelled as lists (iteration order is unspecified in the
source; no theorem below depends on a particular order).  The stable
sort used by sorted(...) is modelled by a stable insertion sort.
A run of the recursive search is modelled with an explicit fuel
parameter; running out of fuel, like the crash of order_domain_values
on a None variable, is modelled as the distinguished outcome none,
different from a normal return (some none = the no-solution return,
some (some a) = a returned assignment).

The Crossword data itself (class Crossword of crossword.py) is not part
of the source files; it is modelled from the spec.
-/
import Mathlib

set_option maxHeartbeats 1000000

namespace CrosswordCSP

abbrev Var := Nat
abbrev Word := List Char
abbrev Assignment := List (Var × Word)

/-- Modelled from the spec: the missing Crossword class.  A crossword
instance has a finite set of slots (variables), a vocabulary of words,
a required length per slot, and an overlap lookup giving, for an
ordered pair of slots, the optional pair of character offsets that must
match; absence of a shared cell means no overlap entry. -/
structure Crossword where
  vars : List Var
  words : List Word
  length : Var → Nat
  overlaps : Var → Var → Option (Nat × Nat)

abbrev Doms := Var → List Word

/-- Modelled from the spec: the missing Crossword.neighbors method:
the slots distinct from x that have an overlap with x. -/
def neighbors (cw : Crossword) (x : Var) : List Var :=
  cw.vars.filter (fun v => v != x && (cw.overlaps v x).isSome)

/-- Degree of a slot: the number of distinct overlapping neighbor slots
(when the variable list has no duplicates). -/
def degree (cw : Crossword) (x : Var) : Nat := (neighbors cw x).length

/-- Modelled from the spec: the default initial worklist of ac3, every
ordered pair of distinct slots of the problem. -/
def allArcs (cw : Crossword) : List (Var × Var) :=
  (cw.vars.product cw.vars).filter (fun p => p.1 != p.2)

/-- Lookup in the assignment dict. -/
def lookupA : Assignment → Var → Option Word
  | [], _ => none
  | p :: rest, v => if p.1 = v then some p.2 else lookupA rest v

/-- The dict update assignment[var] = word: overwrite in place if the key
is present, append otherwise. -/
def dictInsert (a : Assignment) (v : Var) (w : Word) : Assignment :=
  if (lookupA a v).isSome then a.map (fun p => if p.1 = v then (v, w) else p)
  else a ++ [(v, w)]

/-- The dict removal del assignment[var]. -/
def dictErase (a : Assignment) (v : Var) : Assignment :=
  a.filter (fun p => p.1 != v)

/-- Stable insertion into a sorted list: x goes in front of the first
element y with lt y x false.  Used to model the stable sort of Python. -/
def insBy (lt : α → α → Bool) (x : α) : List α → List α
  | [] => [x]
  | y :: ys => if lt y x then y :: insBy lt x ys else x :: y :: ys

/-- Stable sort by a strict comparison, modelling sorted(...) of Python:
elements comparing equal keep their relative order. -/
def sortBy (lt : α → α → Bool) : List α → List α
  | [] => []
  | x :: xs => insBy lt x (sortBy lt xs)

/-- CrosswordCreator.__init__: each variable starts with a copy of the
full vocabulary. -/
def initialDomains (cw : Crossword) : Doms := fun _ => cw.words

/-- CrosswordCreator.enforce_node_consistency: for every variable remove
every candidate word whose length differs from the variable's length. -/
def enforceNodeConsistency (cw : Crossword) (doms : Doms) : Doms :=
  fun v => (doms v).filter (fun w => w.length == cw.length v)

/-- Pointwise update of the domain store at one variable. -/
def updD (doms : Doms) (x : Var) (ws : List Word) : Doms :=
  fun v => if v = x then ws else doms v

/-- The loop of CrosswordCreator.revise over list(self.domains[x]): keep
a word w iff some word u of domain(y) matches it at the overlap offsets
(i, j); the Bool records whether any word was removed. -/
def reviseList (ys : List Word) (i j : Nat) : List Word → List Word × Bool
  | [] => ([], false)
  | w :: ws =>
    let rest := reviseList ys i j ws
    if ys.any (fun u => w.getD i ' ' == u.getD j ' ') then (w :: rest.1, rest.2)
    else (rest.1, true)

/-- CrosswordCreator.revise: if x and y have no overlap, nothing happens
and False is returned; otherwise the unsupported words are removed from
domain(x) and the Bool tells whether a revision was made. -/
def revise (cw : Crossword) (doms : Doms) (x y : Var) : Doms × Bool :=
  match cw.overlaps x y with
  | none => (doms, false)
  | some (i, j) =>
    let r := reviseList (doms y) i j (doms x)
    (updD doms x r.1, r.2)

/-- CrosswordCreator.ac3, with an explicit fuel bounding the number of
worklist iterations: pop an arc (x, y) from the front of the FIFO queue,
revise; on a revision that empties domain(x) return failure, on any
other revision re-enqueue (neighbor, x) for every neighbor of x other
than y.  Fuel exhaustion yields none; the source loop needs no fuel and
ac3Bound below is proved sufficient. -/
def ac3Fuel (cw : Crossword) : Nat → Doms → List (Var × Var) → Option (Doms × Bool)
  | 0, _, _ => none
  | fuel + 1, doms, arcs =>
    match arcs with
    | [] => some (doms, true)
    | (x, y) :: rest =>
      let p := revise cw doms x y
      if p.2 then
        if (p.1 x).length = 0 then some (p.1, false)
        else ac3Fuel cw fuel p.1
          (rest ++ ((neighbors cw x).filter (fun n => n != y)).map (fun n => (n, x)))
      else ac3Fuel cw fuel p.1 rest

/-- Sum of the domain sizes over a list of variables. -/
def domSum (doms : Doms) (l : List Var) : Nat :=
  (l.map (fun v => (doms v).length)).sum

/-- A fuel bound sufficient for ac3Fuel to finish (proved below). -/
def ac3Bound (cw : Crossword) (doms : Doms) (arcs : List (Var × Var)) : Nat :=
  domSum doms ((cw.vars ++ arcs.map Prod.fst).dedup) * (cw.vars.length + 1)
    + arcs.length + 1

/-- CrosswordCreator.ac3 run with the sufficient fuel; the fallback of
getD is dead code (ac3Bound is proved sufficient below). -/
def ac3 (cw : Crossword) (doms : Doms) (arcs : List (Var × Var)) : Doms × Bool :=
  (ac3Fuel cw (ac3Bound cw doms arcs) doms arcs).getD (doms, false)

/-- CrosswordCreator.assignment_complete: every variable of the
crossword has an entry in the assignment. -/
def assignmentComplete (cw : Crossword) (a : Assignment) : Bool :=
  cw.vars.all (fun v => (lookupA a v).isSome)

/-- CrosswordCreator.consistent: every assigned word has the length of
its slot and, for every other assigned slot, the words differ and agree
at the overlap offsets whenever an overlap exists. -/
def consistent (cw : Crossword) (a : Assignment) : Bool :=
  a.all (fun p =>
    p.2.length == cw.length p.1 &&
    a.all (fun q =>
      p.1 == q.1 ||
      (p.2 != q.2 &&
        match cw.overlaps p.1 q.1 with
        | none => true
        | some (i, j) => p.2.getD i ' ' == q.2.getD j ' ')))

/-- The count of CrosswordCreator.order_domain_values: how many words of
the domains of unassigned other variables overlapping var are
incompatible with the word w at the overlap offsets. -/
def numEliminated (cw : Crossword) (doms : Doms) (a : Assignment) (var : Var)
    (w : Word) : Nat :=
  (cw.vars.map (fun ov =>
    if (lookupA a ov).isNone && ov != var then
      match cw.overlaps var ov with
      | none => 0
      | some (i, j) =>
        ((doms ov).filter (fun u => !(w.getD i ' ' == u.getD j ' '))).length
    else 0)).sum

/-- CrosswordCreator.order_domain_values: the domain of var sorted
ascending (stably) by the number of eliminated neighbor values. -/
def orderDomainValues (cw : Crossword) (doms : Doms) (a : Assignment)
    (var : Var) : List Word :=
  sortBy (fun w1 w2 => numEliminated cw doms a var w1 < numEliminated cw doms a var w2)
    (doms var)

/-- The loop of CrosswordCreator.select_unassigned_variable: walk the
variables keeping the smallest domain size seen so far (starting from
the literal sentinel 10000000000 of the source) and the list of
unassigned variables attaining it. -/
def selectLoop (doms : Doms) (a : Assignment) :
    List Var → Nat → List Var → Nat × List Var
  | [], small, best => (small, best)
  | v :: rest, small, best =>
    if (lookupA a v).isNone then
      if (doms v).length < small then selectLoop doms a rest (doms v).length [v]
      else if (doms v).length = small then selectLoop doms a rest small (best ++ [v])
      else selectLoop doms a rest small best
    else selectLoop doms a rest small best

/-- CrosswordCreator.select_unassigned_variable: smallest remaining
domain first, ties broken by largest degree (a stable descending sort
by degree, first element taken). -/
def selectUnassignedVariable (cw : Crossword) (doms : Doms) (a : Assignment) :
    Option Var :=
  match (selectLoop doms a cw.vars 10000000000 []).2 with
  | [] => none
  | [v] => some v
  | v :: v' :: vs =>
    some ((sortBy (fun u u' => degree cw u' < degree cw u) (v :: v' :: vs)).headD v)

/-- Result of a search call: first component some (some r) is a returned
assignment, some none is the no-solution return, none is a crash or
fuel exhaustion; the other two components are the assignment dict and
the domain store as the call leaves them. -/
abbrev BTRes := Option (Option Assignment) × Assignment × Doms

/-- The candidate loop of CrosswordCreator.backtrack: tentatively insert
the word, check consistency, recurse via bt, propagate a success
immediately, otherwise delete the tentative entry and continue. -/
def tryWords (cw : Crossword) (bt : Doms → Assignment → BTRes) (var : Var) :
    Doms → Assignment → List Word → BTRes
  | doms, a, [] => (some none, a, doms)
  | doms, a, w :: ws =>
    if consistent cw (dictInsert a var w) then
      match bt doms (dictInsert a var w) with
      | (some (some r), a2, d2) => (some (some r), a2, d2)
      | (some none, a2, d2) => tryWords cw bt var d2 (dictErase a2 var) ws
      | (none, a2, d2) => (none, a2, d2)
    else tryWords cw bt var doms (dictErase (dictInsert a var w) var) ws

/-- CrosswordCreator.backtrack with fuel: return the assignment if
complete, otherwise select an unassigned variable and try its domain
values in heuristic order.  A none selection (the source would crash
calling order_domain_values on None) and fuel exhaustion both give the
crash outcome none. -/
def backtrack (cw : Crossword) : Nat → Doms → Assignment → BTRes
  | 0, doms, a => (none, a, doms)
  | fuel + 1, doms, a =>
    if assignmentComplete cw a then (some (some a), a, doms)
    else
      match selectUnassignedVariable cw doms a with
      | none => (none, a, doms)
      | some var =>
        tryWords cw (backtrack cw fuel) var doms a (orderDomainValues cw doms a var)

/-- CrosswordCreator.solve, instrumented with a Bool recording whether
the backtracking search was invoked: enforce node consistency, run ac3
on the default arcs discarding its Bool result, then always call
backtrack on the empty assignment (the source ignores the ac3 result).
The search fuel vars.length + 1 bounds the recursion depth, which grows
with the assignment size. -/
def solveT (cw : Crossword) : Option (Option Assignment) × Bool :=
  let d1 := enforceNodeConsistency cw (initialDomains cw)
  let d2 := (ac3 cw d1 (allArcs cw)).1
  ((backtrack cw (cw.vars.length + 1) d2 []).1, true)

/-- CrosswordCreator.solve: the returned value alone. -/
def solve (cw : Crossword) : Option (Option Assignment) :=
  (solveT cw).1

/-- Arc consistency of x with respect to y: every word of domain(x) has
a supporting word in domain(y) at the overlap offsets. -/
def arcCons (cw : Crossword) (doms : Doms) (x y : Var) : Prop :=
  ∀ i j, cw.overlaps x y = some (i, j) →
    ∀ w ∈ doms x, ∃ u ∈ doms y, w.getD i ' ' = u.getD j ' '

/-- A complete globally consistent assignment of vocabulary words to
slots: every slot gets a vocabulary word of its length, distinct slots
get distinct words, and overlapping slots agree at the overlap offsets. -/
def isSolution (cw : Crossword) (s : Var → Word) : Prop :=
  (∀ v ∈ cw.vars, s v ∈ cw.words) ∧
  (∀ v ∈ cw.vars, (s v).length = cw.length v) ∧
  (∀ x ∈ cw.vars, ∀ y ∈ cw.vars, x ≠ y → s x ≠ s y) ∧
  (∀ x ∈ cw.vars, ∀ y ∈ cw.vars, x ≠ y → ∀ i j, cw.overlaps x y = some (i, j) →
    (s x).getD i ' ' = (s y).getD j ' ')

/-- Bounded check that the overlap relation is symmetric on the slots of
the crossword, with mirrored offsets. -/
def symmCheck (cw : Crossword) : Bool :=
  cw.vars.all (fun x => cw.vars.all (fun y =>
    match cw.overlaps x y with
    | none => true
    | some (i, j) => cw.overlaps y x == some (j, i)))

/-- Bounded check that no slot of the crossword overlaps itself. -/
def irreflCheck (cw : Crossword) : Bool :=
  cw.vars.all (fun v => (cw.overlaps v v).isNone)

/-- A two-slot instance with no solution: the slots have lengths 1 and 2
and overlap at their first characters, but the only candidates, a and
bc, disagree there, so arc consistency empties a domain. -/
def cwU : Crossword where
  vars := [0, 1]
  words := [['a'], ['b', 'c']]
  length := fun v => if v = 0 then 1 else 2
  overlaps := fun x y =>
    if x = 0 ∧ y = 1 then some (0, 0)
    else if x = 1 ∧ y = 0 then some (0, 0) else none

/-- A solvable one-slot instance: a single slot of length 1 and the
single candidate word a. -/
def cwW : Crossword where
  vars := [0]
  words := [['a']]
  length := fun _ => 1
  overlaps := fun _ _ => none

/-- A solvable two-slot instance: two slots of length 1 overlapping at
their first characters, one candidate word a. -/
def cwV : Crossword where
  vars := [0, 1]
  words := [['a']]
  length := fun _ => 1
  overlaps := fun x y =>
    if x = 0 ∧ y = 1 then some (0, 0)
    else if x = 1 ∧ y = 0 then some (0, 0) else none

/-- A two-slot instance whose search explores and retracts tentative
assignments before failing: both slots have length 1 and overlap, the
vocabulary is a and b, so every pair either repeats a word or disagrees
at the overlap. -/
def cwU2 : Crossword where
  vars := [0, 1]
  words := [['a'], ['b']]
  length := fun _ => 1
  overlaps := fun x y =>
    if x = 0 ∧ y = 1 then some (0, 0)
    else if x = 1 ∧ y = 0 then some (0, 0) else none

/-- A one-slot instance used to exhibit the sentinel defect of
select_unassigned_variable: the domain of the slot holds more than
10000000000 words. -/
def cwS : Crossword where
  vars := [0]
  words := [[]]
  length := fun _ => 0
  overlaps := fun _ _ => none

/-- An oversized domain store for cwS. -/
def bigDoms : Doms := fun _ => List.replicate 10000000001 []

/-- A domain store for cwU2 used to exercise the search directly. -/
def dW : Doms := fun _ => [['a'], ['b']]

/-- The running minimum of the domain sizes of the unassigned variables,
starting from an initial bound. -/
def minUn (doms : Doms) (a : Assignment) : List Var → Nat → Nat
  | [], small => small
  | v :: rest, small =>
    if (lookupA a v).isNone then
      minUn doms a rest (min small (doms v).length)
    else minUn doms a rest small


theorem lookupA_eq_none {a : Assignment} {v : Var} :
    lookupA a v = none ↔ ∀ p ∈ a, p.1 ≠ v := by
  induction a with
  | nil => simp [lookupA]
  | cons p rest ih =>
    by_cases h : p.1 = v
    · simp [lookupA, h]
    · simp [lookupA, h, ih]

theorem dictInsert_of_none {a : Assignment} {v : Var} (h : lookupA a v = none)
    (w : Word) : dictInsert a v w = a ++ [(v, w)] := by
  simp [dictInsert, h]

theorem dictErase_append_of_none {a : Assignment} {v : Var}
    (h : lookupA a v = none) (w : Word) :
    dictErase (a ++ [(v, w)]) v = a := by
  rw [lookupA_eq_none] at h
  simp only [dictErase, List.filter_append]
  rw [List.filter_eq_self.mpr, List.filter_cons]
  · simp
  · intro p hp
    simpa using h p hp

theorem mem_insBy {lt : α → α → Bool} {x z : α} :
    ∀ {l : List α}, z ∈ insBy lt x l ↔ z = x ∨ z ∈ l
  | [] => by simp [insBy]
  | y :: ys => by
    rw [insBy]
    by_cases h : lt y x = true
    · rw [if_pos h]
      rw [List.mem_cons, List.mem_cons, mem_insBy]
      tauto
    · rw [if_neg h]
      rw [List.mem_cons, List.mem_cons]

theorem mem_sortBy {lt : α → α → Bool} {z : α} :
    ∀ {l : List α}, z ∈ sortBy lt l ↔ z ∈ l
  | [] => by simp [sortBy]
  | y :: ys => by
    rw [sortBy, mem_insBy, mem_sortBy]
    simp

theorem insBy_ne_nil {lt : α → α → Bool} {x : α} :
    ∀ {l : List α}, insBy lt x l ≠ []
  | [] => by simp [insBy]
  | y :: ys => by
    rw [insBy]
    by_cases h : lt y x = true
    · rw [if_pos h]
      simp
    · rw [if_neg h]
      simp

theorem pairwise_insBy {lt : α → α → Bool} {r : α → α → Prop}
    (h1 : ∀ a b, lt a b = true → r a b) (h2 : ∀ a b, lt a b = false → r b a)
    (ht : Transitive r) (x : α) :
    ∀ {l : List α}, l.Pairwise r → (insBy lt x l).Pairwise r
  | [], _ => by simp [insBy]
  | y :: ys, hp => by
    rw [List.pairwise_cons] at hp
    rw [insBy]
    by_cases h : lt y x = true
    · rw [if_pos h, List.pairwise_cons]
      refine ⟨fun z hz => ?_, pairwise_insBy h1 h2 ht x hp.2⟩
      rcases mem_insBy.mp hz with rfl | hz
      · exact h1 _ _ h
      · exact hp.1 z hz
    · rw [if_neg h, List.pairwise_cons]
      have hf : lt y x = false := Bool.eq_false_iff.mpr h
      refine ⟨fun z hz => ?_, List.pairwise_cons.mpr hp⟩
      rcases List.mem_cons.mp hz with rfl | hz
      · exact h2 _ _ hf
      · exact ht (h2 _ _ hf) (hp.1 z hz)

theorem pairwise_sortBy {lt : α → α → Bool} {r : α → α → Prop}
    (h1 : ∀ a b, lt a b = true → r a b) (h2 : ∀ a b, lt a b = false → r b a)
    (ht : Transitive r) :
    ∀ (l : List α), (sortBy lt l).Pairwise r
  | [] => by simp [sortBy]
  | y :: ys => pairwise_insBy h1 h2 ht y (pairwise_sortBy h1 h2 ht ys)

theorem updD_same (doms : Doms) (x : Var) (ws : List Word) :
    updD doms x ws x = ws := by
  simp [updD]

theorem updD_other (doms : Doms) {x v : Var} (ws : List Word) (h : v ≠ x) :
    updD doms x ws v = doms v := by
  simp [updD, h]

theorem reviseList_fst (ys : List Word) (i j : Nat) :
    ∀ ws : List Word, (reviseList ys i j ws).1 =
      ws.filter (fun w => ys.any (fun u => w.getD i ' ' == u.getD j ' '))
  | [] => rfl
  | w :: ws => by
    rw [reviseList, List.filter_cons]
    by_cases h : ys.any (fun u => w.getD i ' ' == u.getD j ' ') = true
    · rw [if_pos h, if_pos h]
      show w :: (reviseList ys i j ws).1 = _
      rw [reviseList_fst ys i j ws]
    · rw [if_neg h, if_neg h]
      show (reviseList ys i j ws).1 = _
      rw [reviseList_fst ys i j ws]

theorem reviseList_snd (ys : List Word) (i j : Nat) :
    ∀ ws : List Word, (reviseList ys i j ws).2 =
      ws.any (fun w => !(ys.any (fun u => w.getD i ' ' == u.getD j ' ')))
  | [] => rfl
  | w :: ws => by
    rw [reviseList, List.any_cons]
    by_cases h : ys.any (fun u => w.getD i ' ' == u.getD j ' ') = true
    · rw [if_pos h, h]
      simp only [Bool.not_true, Bool.false_or]
      exact reviseList_snd ys i j ws
    · rw [if_neg h, Bool.eq_false_iff.mpr h]
      simp

theorem reviseList_snd_false {ys : List Word} {i j : Nat} {ws : List Word}
    (h : (reviseList ys i j ws).2 = false) : (reviseList ys i j ws).1 = ws := by
  rw [reviseList_snd] at h
  rw [reviseList_fst, List.filter_eq_self]
  intro w hw
  have := List.any_eq_false.mp h w hw
  simpa using this

theorem reviseList_snd_true {ys : List Word} {i j : Nat} {ws : List Word}
    (h : (reviseList ys i j ws).2 = true) :
    ((reviseList ys i j ws).1).length < ws.length := by
  rw [reviseList_snd, List.any_eq_true] at h
  obtain ⟨w, hw, hbad⟩ := h
  rw [Bool.not_eq_true'] at hbad
  rw [reviseList_fst]
  refine lt_of_le_of_ne (List.length_filter_le _ _) fun hlen => ?_
  have := List.filter_length_eq_length.mp hlen w hw
  rw [hbad] at this
  exact Bool.false_ne_true this

theorem revise_eq_none {cw : Crossword} {doms : Doms} {x y : Var}
    (ho : cw.overlaps x y = none) : revise cw doms x y = (doms, false) := by
  unfold revise
  rw [ho]

theorem revise_eq_some {cw : Crossword} {doms : Doms} {x y : Var} {i j : Nat}
    (ho : cw.overlaps x y = some (i, j)) :
    revise cw doms x y =
      (updD doms x (reviseList (doms y) i j (doms x)).1,
        (reviseList (doms y) i j (doms x)).2) := by
  unfold revise
  rw [ho]

/-- Any variable other than x keeps its domain under revise. -/
theorem revise_other {cw : Crossword} {doms : Doms} {x y v : Var} (h : v ≠ x) :
    (revise cw doms x y).1 v = doms v := by
  cases ho : cw.overlaps x y with
  | none => rw [revise_eq_none ho]
  | some p =>
    obtain ⟨i, j⟩ := p
    rw [revise_eq_some ho]
    exact updD_other doms _ h

theorem revise_false_eq {cw : Crossword} {doms : Doms} {x y : Var}
    (h : (revise cw doms x y).2 = false) :
    ∀ v, (revise cw doms x y).1 v = doms v := by
  intro v
  by_cases hv : v = x
  · subst hv
    cases ho : cw.overlaps v y with
    | none => rw [revise_eq_none ho]
    | some p =>
      obtain ⟨i, j⟩ := p
      rw [revise_eq_some ho] at h ⊢
      dsimp only at h ⊢
      rw [updD_same]
      exact reviseList_snd_false h
  · exact revise_other hv

theorem revise_true_shrink {cw : Crossword} {doms : Doms} {x y : Var}
    (h : (revise cw doms x y).2 = true) :
    ∃ i j, cw.overlaps x y = some (i, j) ∧
      ((revise cw doms x y).1 x).length < (doms x).length := by
  cases ho : cw.overlaps x y with
  | none => rw [revise_eq_none ho] at h; exact absurd h (by simp)
  | some p =>
    obtain ⟨i, j⟩ := p
    rw [revise_eq_some ho] at h ⊢
    dsimp only at h ⊢
    refine ⟨i, j, rfl, ?_⟩
    rw [updD_same]
    exact reviseList_snd_true h

/-- Words kept by revise were in the old domain and have a support. -/
theorem revise_keep_sound {cw : Crossword} {doms : Doms} {x y : Var} {i j : Nat}
    (ho : cw.overlaps x y = some (i, j)) {w : Word}
    (hw : w ∈ (revise cw doms x y).1 x) :
    w ∈ doms x ∧ ∃ u ∈ doms y, w.getD i ' ' = u.getD j ' ' := by
  rw [revise_eq_some ho] at hw
  dsimp only at hw
  rw [updD_same, reviseList_fst, List.mem_filter] at hw
  obtain ⟨hmem, hsup⟩ := hw
  rw [List.any_eq_true] at hsup
  obtain ⟨u, hu, heq⟩ := hsup
  exact ⟨hmem, u, hu, by simpa using heq⟩

/-- A word of the old domain with a support is kept by revise. -/
theorem revise_keep_of_support {cw : Crossword} {doms : Doms} {x y : Var}
    {i j : Nat} (ho : cw.overlaps x y = some (i, j)) {w : Word}
    (hw : w ∈ doms x) (hs : ∃ u ∈ doms y, w.getD i ' ' = u.getD j ' ') :
    w ∈ (revise cw doms x y).1 x := by
  rw [revise_eq_some ho]
  dsimp only
  rw [updD_same, reviseList_fst, List.mem_filter]
  obtain ⟨u, hu, heq⟩ := hs
  exact ⟨hw, List.any_eq_true.mpr ⟨u, hu, by simpa using heq⟩⟩

theorem mem_neighbors {cw : Crossword} {x n : Var} :
    n ∈ neighbors cw x ↔
      n ∈ cw.vars ∧ n ≠ x ∧ (cw.overlaps n x).isSome = true := by
  simp [neighbors, List.mem_filter, bne_iff_ne, and_assoc]

theorem newArcs_wf {cw : Crossword} {x y : Var} :
    ∀ q ∈ ((neighbors cw x).filter (fun n => n != y)).map (fun n => (n, x)),
      q.1 ∈ cw.vars ∧ q.1 ≠ x ∧ (cw.overlaps q.1 x).isSome = true := by
  intro q hq
  obtain ⟨n, hn, rfl⟩ := List.mem_map.mp hq
  exact mem_neighbors.mp (List.mem_filter.mp hn).1

theorem ac3Fuel_succ_cons (cw : Crossword) (fuel : Nat) (doms : Doms)
    (x y : Var) (rest : List (Var × Var)) :
    ac3Fuel cw (fuel + 1) doms ((x, y) :: rest) =
      if (revise cw doms x y).2 then
        if ((revise cw doms x y).1 x).length = 0 then
          some ((revise cw doms x y).1, false)
        else ac3Fuel cw fuel (revise cw doms x y).1
          (rest ++ ((neighbors cw x).filter (fun n => n != y)).map (fun n => (n, x)))
      else ac3Fuel cw fuel (revise cw doms x y).1 rest := rfl

theorem ac3Fuel_mono {cw : Crossword} :
    ∀ {f : Nat} {f' : Nat} {doms : Doms} {arcs : List (Var × Var)}
      {r : Doms × Bool}, f ≤ f' →
      ac3Fuel cw f doms arcs = some r → ac3Fuel cw f' doms arcs = some r := by
  intro f
  induction f with
  | zero =>
    intro f' doms arcs r _ h
    exact absurd h (by simp [ac3Fuel])
  | succ f ih =>
    intro f' doms arcs r hle h
    obtain ⟨f'', rfl⟩ : ∃ f'', f' = f'' + 1 := ⟨f' - 1, by omega⟩
    cases arcs with
    | nil => simpa [ac3Fuel] using h
    | cons p rest =>
      obtain ⟨x, y⟩ := p
      rw [ac3Fuel_succ_cons] at h ⊢
      by_cases hr : (revise cw doms x y).2 = true
      · rw [if_pos hr] at h ⊢
        by_cases he : ((revise cw doms x y).1 x).length = 0
        · rw [if_pos he] at h ⊢
          exact h
        · rw [if_neg he] at h ⊢
          exact ih (by omega) h
      · rw [if_neg hr] at h ⊢
        exact ih (by omega) h

theorem domSum_cons (doms : Doms) (v : Var) (rest : List Var) :
    domSum doms (v :: rest) = (doms v).length + domSum doms rest := by
  simp [domSum]

theorem domSum_congr {d1 d2 : Doms} :
    ∀ {l : List Var}, (∀ v ∈ l, d1 v = d2 v) → domSum d1 l = domSum d2 l := by
  intro l
  induction l with
  | nil => intro _; rfl
  | cons v rest ih =>
    intro h
    rw [domSum_cons, domSum_cons, h v (List.mem_cons_self _ _),
      ih (fun u hu => h u (List.mem_cons_of_mem _ hu))]

theorem domSum_updD {doms : Doms} {x : Var} {ws : List Word} :
    ∀ {V : List Var}, V.Nodup → x ∈ V →
      domSum (updD doms x ws) V + (doms x).length = domSum doms V + ws.length := by
  intro V
  induction V with
  | nil => intro _ hx; cases hx
  | cons v rest ih =>
    intro hnd hx
    rw [List.nodup_cons] at hnd
    rw [domSum_cons, domSum_cons]
    rcases List.mem_cons.mp hx with rfl | hx'
    · have hrest : domSum (updD doms x ws) rest = domSum doms rest :=
        domSum_congr (fun u hu => updD_other doms _ (fun e => hnd.1 (e ▸ hu)))
      rw [updD_same, hrest]
      omega
    · have hv : v ≠ x := fun e => hnd.1 (e ▸ hx')
      rw [updD_other doms _ hv]
      have := ih hnd.2 hx'
      omega

theorem ac3Fuel_suff {cw : Crossword} {V : List Var} (hnd : V.Nodup)
    (hV : ∀ v ∈ cw.vars, v ∈ V) :
    ∀ (fuel : Nat) (doms : Doms) (arcs : List (Var × Var)),
      (∀ p ∈ arcs, p.1 ∈ V) →
      domSum doms V * (cw.vars.length + 1) + arcs.length + 1 ≤ fuel →
      (ac3Fuel cw fuel doms arcs).isSome = true := by
  intro fuel
  induction fuel with
  | zero =>
    intro doms arcs _ hb
    exact absurd hb (by omega)
  | succ fuel ih =>
    intro doms arcs harcs hb
    cases arcs with
    | nil => simp [ac3Fuel]
    | cons p rest =>
      obtain ⟨x, y⟩ := p
      rw [ac3Fuel_succ_cons]
      by_cases hr : (revise cw doms x y).2 = true
      · rw [if_pos hr]
        by_cases he : ((revise cw doms x y).1 x).length = 0
        · rw [if_pos he]
          simp
        · rw [if_neg he]
          apply ih
          · intro q hq
            rcases List.mem_append.mp hq with hq | hq
            · exact harcs q (List.mem_cons_of_mem _ hq)
            · exact hV q.1 (newArcs_wf q hq).1
          · obtain ⟨i, j, ho, hlt⟩ := revise_true_shrink hr
            have hx : x ∈ V := harcs (x, y) (List.mem_cons_self _ _)
            have h1 : domSum (revise cw doms x y).1 V + (doms x).length =
                domSum doms V + ((revise cw doms x y).1 x).length := by
              rw [revise_eq_some ho]
              dsimp only
              rw [domSum_updD hnd hx, updD_same]
            have hK : (((neighbors cw x).filter (fun n => n != y)).map
                (fun n => (n, x))).length ≤ cw.vars.length := by
              rw [List.length_map]
              exact le_trans (List.length_filter_le _ _)
                (List.length_filter_le _ _)
            have hS : domSum (revise cw doms x y).1 V + 1 ≤ domSum doms V := by
              omega
            have hmul : domSum (revise cw doms x y).1 V * (cw.vars.length + 1)
                + (cw.vars.length + 1) ≤ domSum doms V * (cw.vars.length + 1) := by
              have := Nat.mul_le_mul_right (cw.vars.length + 1) hS
              calc domSum (revise cw doms x y).1 V * (cw.vars.length + 1)
                  + (cw.vars.length + 1)
                  = (domSum (revise cw doms x y).1 V + 1) * (cw.vars.length + 1) := by
                    ring
                _ ≤ domSum doms V * (cw.vars.length + 1) := this
            rw [List.length_append]
            rw [List.length_cons] at hb
            omega
      · rw [if_neg hr]
        apply ih
        · intro q hq
          exact harcs q (List.mem_cons_of_mem _ hq)
        · have heq : domSum (revise cw doms x y).1 V = domSum doms V :=
            domSum_congr (fun v _ => revise_false_eq (Bool.eq_false_iff.mpr hr) v)
          rw [List.length_cons] at hb
          rw [heq]
          omega

/-- The fuel ac3Bound always suffices: ac3 is the unique result of the
worklist loop. -/
theorem ac3_eq_some (cw : Crossword) (doms : Doms) (arcs : List (Var × Var)) :
    ac3Fuel cw (ac3Bound cw doms arcs) doms arcs = some (ac3 cw doms arcs) := by
  have h := @ac3Fuel_suff cw ((cw.vars ++ arcs.map Prod.fst).dedup)
    (List.nodup_dedup _)
    (fun v hv => List.mem_dedup.mpr (List.mem_append_left _ hv))
    (ac3Bound cw doms arcs) doms arcs
    (fun p hp => List.mem_dedup.mpr
      (List.mem_append_right _ (List.mem_map_of_mem _ hp)))
    (le_of_eq rfl)
  obtain ⟨r, hr⟩ := Option.isSome_iff_exists.mp h
  unfold ac3
  rw [hr]
  rfl

/-- A failure return of the worklist loop exhibits an emptied domain at
a variable of the crossword. -/
theorem ac3Fuel_false_empty {cw : Crossword} :
    ∀ {fuel : Nat} {doms : Doms} {arcs : List (Var × Var)} {d2 : Doms},
      (∀ p ∈ arcs, p.1 ∈ cw.vars) →
      ac3Fuel cw fuel doms arcs = some (d2, false) →
      ∃ x ∈ cw.vars, d2 x = [] := by
  intro fuel
  induction fuel with
  | zero =>
    intro doms arcs d2 _ h
    exact absurd h (by simp [ac3Fuel])
  | succ fuel ih =>
    intro doms arcs d2 harcs h
    cases arcs with
    | nil =>
      rw [show ac3Fuel cw (fuel + 1) doms [] = some (doms, true) from rfl] at h
      simp at h
    | cons p rest =>
      obtain ⟨x, y⟩ := p
      rw [ac3Fuel_succ_cons] at h
      by_cases hr : (revise cw doms x y).2 = true
      · rw [if_pos hr] at h
        by_cases he : ((revise cw doms x y).1 x).length = 0
        · rw [if_pos he] at h
          injection h with h'
          refine ⟨x, harcs (x, y) (List.mem_cons_self _ _), ?_⟩
          have hd : (revise cw doms x y).1 = d2 := congrArg Prod.fst h'
          rw [← hd]
          exact List.length_eq_zero.mp he
        · rw [if_neg he] at h
          refine ih ?_ h
          intro q hq
          rcases List.mem_append.mp hq with hq | hq
          · exact harcs q (List.mem_cons_of_mem _ hq)
          · exact (newArcs_wf q hq).1
      · rw [if_neg hr] at h
        exact ih (fun q hq => harcs q (List.mem_cons_of_mem _ hq)) h

/-- Revise only shrinks domains. -/
theorem revise_subset {cw : Crossword} {doms : Doms} {x y : Var} :
    ∀ v w, w ∈ (revise cw doms x y).1 v → w ∈ doms v := by
  intro v w hw
  by_cases hv : v = x
  · subst hv
    cases ho : cw.overlaps v y with
    | none => rwa [revise_eq_none ho] at hw
    | some p =>
      obtain ⟨i, j⟩ := p
      exact (revise_keep_sound ho hw).1
  · rwa [revise_other hv] at hw

/-- A revise that removed nothing certifies arc consistency of x with y. -/
theorem revise_false_arcCons {cw : Crossword} {doms : Doms} {x y : Var}
    (h : (revise cw doms x y).2 = false) : arcCons cw doms x y := by
  intro i j ho w hw
  have h' := h
  rw [revise_eq_some ho] at h'
  dsimp only at h'
  rw [reviseList_snd] at h'
  have := List.any_eq_false.mp h' w hw
  rw [Bool.not_eq_true', Bool.not_eq_false, List.any_eq_true] at this
  obtain ⟨u, hu, heq⟩ := this
  exact ⟨u, hu, by simpa using heq⟩

/-- Arc consistency only depends on the domain values. -/
theorem arcCons_of_eq {cw : Crossword} {d1 d2 : Doms} {x y : Var}
    (h : ∀ v, d1 v = d2 v) (hc : arcCons cw d2 x y) : arcCons cw d1 x y := by
  intro i j ho w hw
  rw [h x] at hw
  obtain ⟨u, hu, he⟩ := hc i j ho w hw
  exact ⟨u, by rw [h y]; exact hu, he⟩

/-- Retained solution words: revising an arc between two distinct slots
never removes the word a global solution assigns. -/
theorem revise_preserves {cw : Crossword} {s : Var → Word} (hs : isSolution cw s)
    {doms : Doms} {x y : Var} (hx : x ∈ cw.vars) (hy : y ∈ cw.vars)
    (hxy : x ≠ y) (hd : ∀ v ∈ cw.vars, s v ∈ doms v) :
    ∀ v ∈ cw.vars, s v ∈ (revise cw doms x y).1 v := by
  intro v hv
  by_cases hvx : v = x
  · subst hvx
    cases ho : cw.overlaps v y with
    | none =>
      rw [revise_eq_none ho]
      exact hd v hv
    | some p =>
      obtain ⟨i, j⟩ := p
      exact revise_keep_of_support ho (hd v hv)
        ⟨s y, hd y hy, hs.2.2.2 v hv y hy hxy i j ho⟩
  · rw [revise_other hvx]
    exact hd v hv

/-- A global solution survives the whole ac3 propagation: its word at
every slot is still in the final domain store, whatever the outcome. -/
theorem ac3Fuel_preserves {cw : Crossword} {s : Var → Word}
    (hs : isSolution cw s) :
    ∀ {fuel : Nat} {doms : Doms} {arcs : List (Var × Var)} {r : Doms × Bool},
      (∀ p ∈ arcs, p.1 ∈ cw.vars ∧ p.2 ∈ cw.vars ∧ p.1 ≠ p.2) →
      (∀ v ∈ cw.vars, s v ∈ doms v) →
      ac3Fuel cw fuel doms arcs = some r →
      ∀ v ∈ cw.vars, s v ∈ r.1 v := by
  intro fuel
  induction fuel with
  | zero =>
    intro doms arcs r _ _ h
    exact absurd h (by simp [ac3Fuel])
  | succ fuel ih =>
    intro doms arcs r harcs hd h
    cases arcs with
    | nil =>
      rw [show ac3Fuel cw (fuel + 1) doms [] = some (doms, true) from rfl] at h
      injection h with h'
      rw [← h']
      exact hd
    | cons p rest =>
      obtain ⟨x, y⟩ := p
      obtain ⟨hx, hy, hxy⟩ := harcs (x, y) (List.mem_cons_self _ _)
      have hd1 : ∀ v ∈ cw.vars, s v ∈ (revise cw doms x y).1 v :=
        revise_preserves hs hx hy hxy hd
      rw [ac3Fuel_succ_cons] at h
      by_cases hr : (revise cw doms x y).2 = true
      · rw [if_pos hr] at h
        by_cases he : ((revise cw doms x y).1 x).length = 0
        · rw [if_pos he] at h
          injection h with h'
          rw [← h']
          exact hd1
        · rw [if_neg he] at h
          refine ih ?_ hd1 h
          intro q hq
          rcases List.mem_append.mp hq with hq | hq
          · exact harcs q (List.mem_cons_of_mem _ hq)
          · obtain ⟨hq1, hq2, _⟩ := newArcs_wf q hq
            obtain ⟨n, hn, rfl⟩ := List.mem_map.mp hq
            exact ⟨hq1, hx, hq2⟩
      · rw [if_neg hr] at h
        exact ih (fun q hq => harcs q (List.mem_cons_of_mem _ hq)) hd1 h

/-- The central AC-3 invariant: when the worklist loop returns success,
every ordered pair of distinct slots is arc consistent, provided every
pair is either already consistent or still enqueued, arcs never relate
a slot to itself, and the overlap relation is symmetric on the slots. -/
theorem ac3Fuel_fixedpoint {cw : Crossword}
    (hsym : ∀ x ∈ cw.vars, ∀ y ∈ cw.vars, ∀ i j,
      cw.overlaps x y = some (i, j) → cw.overlaps y x = some (j, i)) :
    ∀ {fuel : Nat} {doms : Doms} {arcs : List (Var × Var)} {d' : Doms},
      (∀ p ∈ arcs, p.1 ≠ p.2) →
      (∀ x ∈ cw.vars, ∀ y ∈ cw.vars, x ≠ y →
        (x, y) ∈ arcs ∨ arcCons cw doms x y) →
      ac3Fuel cw fuel doms arcs = some (d', true) →
      ∀ x ∈ cw.vars, ∀ y ∈ cw.vars, x ≠ y → arcCons cw d' x y := by
  intro fuel
  induction fuel with
  | zero =>
    intro doms arcs d' _ _ h
    exact absurd h (by simp [ac3Fuel])
  | succ fuel ih =>
    intro doms arcs d' hwf hinv h
    cases arcs with
    | nil =>
      rw [show ac3Fuel cw (fuel + 1) doms [] = some (doms, true) from rfl] at h
      injection h with h'
      have hd : doms = d' := congrArg Prod.fst h'
      intro x hx y hy hxy
      rcases hinv x hx y hy hxy with hc | hc
      · cases hc
      · rw [← hd]
        exact hc
    | cons p rest =>
      obtain ⟨x, y⟩ := p
      have hxy : x ≠ y := hwf (x, y) (List.mem_cons_self _ _)
      rw [ac3Fuel_succ_cons] at h
      by_cases hr : (revise cw doms x y).2 = true
      · rw [if_pos hr] at h
        by_cases he : ((revise cw doms x y).1 x).length = 0
        · rw [if_pos he] at h
          injection h with h'
          exact absurd (congrArg Prod.snd h') (by simp)
        · rw [if_neg he] at h
          refine ih ?_ ?_ h
          · intro q hq
            rcases List.mem_append.mp hq with hq | hq
            · exact hwf q (List.mem_cons_of_mem _ hq)
            · obtain ⟨n, hn, rfl⟩ := List.mem_map.mp hq
              exact (newArcs_wf _ hq).2.1
          · -- re-establish the invariant after the revision of (x, y)
            intro p hp q hq hpq
            rcases hinv p hp q hq hpq with hin | hc
            · rcases List.mem_cons.mp hin with heq2 | hin
              · -- the popped arc itself: revise made it consistent
                injection heq2 with e1 e2
                subst e1
                subst e2
                right
                intro i j ho w hw
                obtain ⟨-, u, hu, hsup⟩ := revise_keep_sound ho hw
                refine ⟨u, ?_, hsup⟩
                rw [revise_other (Ne.symm hxy)]
                exact hu
              · exact Or.inl (List.mem_append_left _ hin)
            · -- previously consistent arc (p, q)
              by_cases hqx : q = x
              · subst hqx
                by_cases hpy : p = y
                · -- the reverse arc (y, x): consistency survives by symmetry
                  subst hpy
                  right
                  intro j' i' ho' w hw
                  rw [revise_other (fun e => hpq e)] at hw
                  obtain ⟨u, hu, hsup⟩ := hc j' i' ho' w hw
                  have hoxy : cw.overlaps q p = some (i', j') :=
                    hsym p hp q hq j' i' ho'
                  refine ⟨u, revise_keep_of_support hoxy hu ⟨w, hw, hsup.symm⟩, hsup⟩
                · -- any other arc into x is re-enqueued, unless no overlap
                  cases hov : cw.overlaps p q with
                  | none =>
                    right
                    intro i j ho
                    rw [hov] at ho
                    cases ho
                  | some z =>
                    left
                    refine List.mem_append_right _ ?_
                    refine List.mem_map.mpr ⟨p, ?_, rfl⟩
                    refine List.mem_filter.mpr ⟨?_, by simpa using hpy⟩
                    exact mem_neighbors.mpr ⟨hp, hpq, by rw [hov]; rfl⟩
              · -- arcs not pointing at x keep their support
                right
                intro i j ho w hw
                have hw' : w ∈ doms p := revise_subset p w hw
                obtain ⟨u, hu, hsup⟩ := hc i j ho w hw'
                refine ⟨u, ?_, hsup⟩
                rw [revise_other hqx]
                exact hu
      · rw [if_neg hr] at h
        have hfe := revise_false_eq (Bool.eq_false_iff.mpr hr)
        refine ih (fun q hq => hwf q (List.mem_cons_of_mem _ hq)) ?_ h
        intro p hp q hq hpq
        rcases hinv p hp q hq hpq with hin | hc
        · rcases List.mem_cons.mp hin with heq2 | hin
          · injection heq2 with e1 e2
            subst e1
            subst e2
            exact Or.inr (arcCons_of_eq hfe (revise_false_arcCons
              (Bool.eq_false_iff.mpr hr)))
          · exact Or.inl hin
        · exact Or.inr (arcCons_of_eq hfe hc)

/-- Unfolding of the bounded symmetry check. -/
theorem symmCheck_spec {cw : Crossword} (h : symmCheck cw = true) :
    ∀ x ∈ cw.vars, ∀ y ∈ cw.vars, ∀ i j,
      cw.overlaps x y = some (i, j) → cw.overlaps y x = some (j, i) := by
  intro x hx y hy i j ho
  have h1 := List.all_eq_true.mp (List.all_eq_true.mp h x hx) y hy
  rw [ho] at h1
  simpa using h1

/-- Unfolding of the bounded irreflexivity check. -/
theorem irreflCheck_spec {cw : Crossword} (h : irreflCheck cw = true) :
    ∀ v ∈ cw.vars, cw.overlaps v v = none := by
  intro v hv
  have h1 := List.all_eq_true.mp h v hv
  simpa [Option.isNone_iff_eq_none] using h1

theorem minUn_le_start (doms : Doms) (a : Assignment) :
    ∀ (l : List Var) (small : Nat), minUn doms a l small ≤ small := by
  intro l
  induction l with
  | nil => intro small; exact le_refl _
  | cons v rest ih =>
    intro small
    rw [minUn]
    by_cases h : (lookupA a v).isNone = true
    · rw [if_pos h]
      exact le_trans (ih _) (min_le_left _ _)
    · rw [if_neg h]
      exact ih _

theorem minUn_le_size (doms : Doms) (a : Assignment) :
    ∀ (l : List Var) (small : Nat) (v : Var), v ∈ l →
      (lookupA a v).isNone = true → minUn doms a l small ≤ (doms v).length := by
  intro l
  induction l with
  | nil => intro _ v hv; cases hv
  | cons u rest ih =>
    intro small v hv hun
    rw [minUn]
    rcases List.mem_cons.mp hv with rfl | hv'
    · rw [if_pos hun]
      exact le_trans (minUn_le_start doms a rest _) (min_le_right _ _)
    · by_cases h : (lookupA a u).isNone = true
      · rw [if_pos h]
        exact ih _ v hv' hun
      · rw [if_neg h]
        exact ih _ v hv' hun

theorem minUn_achieved (doms : Doms) (a : Assignment) :
    ∀ (l : List Var) (small : Nat), minUn doms a l small = small ∨
      ∃ v ∈ l, (lookupA a v).isNone = true ∧
        (doms v).length = minUn doms a l small := by
  intro l
  induction l with
  | nil => intro small; exact Or.inl rfl
  | cons u rest ih =>
    intro small
    rw [minUn]
    by_cases h : (lookupA a u).isNone = true
    · rw [if_pos h]
      rcases ih (min small (doms u).length) with heq | ⟨v, hv, hun, hsz⟩
      · rw [heq]
        rcases le_total (doms u).length small with hle | hle
        · right
          exact ⟨u, List.mem_cons_self _ _, h, (min_eq_right hle).symm⟩
        · left
          exact min_eq_left hle
      · right
        exact ⟨v, List.mem_cons_of_mem _ hv, hun, hsz⟩
    · rw [if_neg h]
      rcases ih small with heq | ⟨v, hv, hun, hsz⟩
      · exact Or.inl heq
      · exact Or.inr ⟨v, List.mem_cons_of_mem _ hv, hun, hsz⟩

theorem selectLoop_fst (doms : Doms) (a : Assignment) :
    ∀ (l : List Var) (small : Nat) (best : List Var),
      (selectLoop doms a l small best).1 = minUn doms a l small := by
  intro l
  induction l with
  | nil => intro small best; rfl
  | cons v rest ih =>
    intro small best
    rw [selectLoop, minUn]
    by_cases h : (lookupA a v).isNone = true
    · rw [if_pos h, if_pos h]
      by_cases h1 : (doms v).length < small
      · rw [if_pos h1, ih, min_eq_right (le_of_lt h1)]
      · rw [if_neg h1]
        by_cases h2 : (doms v).length = small
        · rw [if_pos h2, ih, h2, min_self]
        · rw [if_neg h2, ih, min_eq_left (by omega)]
    · rw [if_neg h, if_neg h, ih]

theorem selectLoop_snd (doms : Doms) (a : Assignment) :
    ∀ (l : List Var) (small : Nat) (best : List Var),
      (selectLoop doms a l small best).2 =
        (if minUn doms a l small = small then best else []) ++
          l.filter (fun v => (lookupA a v).isNone &&
            ((doms v).length == minUn doms a l small)) := by
  intro l
  induction l with
  | nil =>
    intro small best
    simp [selectLoop, minUn]
  | cons v rest ih =>
    intro small best
    rw [selectLoop, minUn, List.filter_cons]
    by_cases h : (lookupA a v).isNone = true
    · rw [if_pos h, if_pos h]
      by_cases h1 : (doms v).length < small
      · rw [if_pos h1, ih]
        have hmin : min small (doms v).length = (doms v).length :=
          min_eq_right (le_of_lt h1)
        rw [hmin]
        have hm_le : minUn doms a rest (doms v).length ≤ (doms v).length :=
          minUn_le_start doms a rest _
        have hne : minUn doms a rest (doms v).length ≠ small := by omega
        rw [if_neg hne, List.nil_append]
        by_cases h2 : minUn doms a rest (doms v).length = (doms v).length
        · have hcond : ((lookupA a v).isNone &&
              ((doms v).length == minUn doms a rest (doms v).length)) = true := by
            rw [h, beq_iff_eq.mpr h2.symm]
            rfl
          rw [hcond, if_pos rfl, if_pos h2]
          rfl
        · have hcond : ((lookupA a v).isNone &&
              ((doms v).length == minUn doms a rest (doms v).length)) = false := by
            rw [h, beq_eq_false_iff_ne.mpr (fun e => h2 e.symm)]
            rfl
          rw [hcond, if_neg Bool.false_ne_true, if_neg h2, List.nil_append]
      · rw [if_neg h1]
        by_cases h2 : (doms v).length = small
        · rw [if_pos h2, ih]
          have hmin : min small (doms v).length = small := min_eq_left (by omega)
          rw [hmin]
          by_cases h3 : minUn doms a rest small = small
          · have hcond : ((lookupA a v).isNone && ((doms v).length ==
                minUn doms a rest small)) = true := by
              rw [h, beq_iff_eq.mpr (by omega)]
              rfl
            rw [hcond, if_pos rfl, if_pos h3, if_pos h3, List.append_assoc]
            rfl
          · have hcond : ((lookupA a v).isNone && ((doms v).length ==
                minUn doms a rest small)) = false := by
              rw [h, beq_eq_false_iff_ne.mpr (by omega)]
              rfl
            rw [hcond, if_neg Bool.false_ne_true, if_neg h3, if_neg h3]
        · rw [if_neg h2, ih]
          have hmin : min small (doms v).length = small := min_eq_left (by omega)
          rw [hmin]
          have hm_le : minUn doms a rest small ≤ small :=
            minUn_le_start doms a rest _
          have hcond : ((lookupA a v).isNone && ((doms v).length ==
              minUn doms a rest small)) = false := by
            rw [h, beq_eq_false_iff_ne.mpr (by omega)]
            rfl
          rw [hcond, if_neg Bool.false_ne_true]
    · rw [if_neg h, if_neg h, ih]
      have hcond : ((lookupA a v).isNone && ((doms v).length ==
          minUn doms a rest small)) = false := by
        rw [Bool.eq_false_iff.mpr h]
        rfl
      rw [hcond, if_neg Bool.false_ne_true]

/-- The candidate list built by the selection loop of
select_unassigned_variable, starting from the literal sentinel: exactly
the unassigned variables whose domain size attains the running minimum. -/
theorem selectLoop_run (cw : Crossword) (doms : Doms) (a : Assignment) :
    (selectLoop doms a cw.vars 10000000000 []).2 =
      cw.vars.filter (fun v => (lookupA a v).isNone &&
        ((doms v).length == minUn doms a cw.vars 10000000000)) := by
  rw [selectLoop_snd, ite_self, List.nil_append]

theorem headD_mem {l : List α} (h : l ≠ []) (d : α) : l.headD d ∈ l := by
  cases l with
  | nil => exact absurd rfl h
  | cons z zs => exact List.mem_cons_self _ _

/-- Whatever select_unassigned_variable returns is a slot of the
crossword, is unassigned, and its domain size attains the running
minimum of the selection loop. -/
theorem select_mem {cw : Crossword} {doms : Doms} {a : Assignment} {w : Var}
    (h : selectUnassignedVariable cw doms a = some w) :
    w ∈ cw.vars ∧ (lookupA a w).isNone = true ∧
      (doms w).length = minUn doms a cw.vars 10000000000 := by
  unfold selectUnassignedVariable at h
  rw [selectLoop_run] at h
  have hmem : w ∈ cw.vars.filter (fun v => (lookupA a v).isNone &&
      ((doms v).length == minUn doms a cw.vars 10000000000)) := by
    cases hf : cw.vars.filter (fun v => (lookupA a v).isNone &&
        ((doms v).length == minUn doms a cw.vars 10000000000)) with
    | nil =>
      rw [hf] at h
      cases h
    | cons v vs =>
      rw [hf] at h
      cases vs with
      | nil =>
        injection h with h'
        rw [← h']
        exact List.mem_cons_self _ _
      | cons v' vs' =>
        injection h with h'
        have hnn : sortBy (fun u u' => degree cw u' < degree cw u)
            (v :: v' :: vs') ≠ [] := by
          rw [sortBy]
          exact insBy_ne_nil
        have hmem' : w ∈ sortBy (fun u u' => degree cw u' < degree cw u)
            (v :: v' :: vs') := by
          rw [← h']
          exact headD_mem hnn v
        exact mem_sortBy.mp hmem'
  have := List.mem_filter.mp hmem
  refine ⟨this.1, ?_, ?_⟩
  · exact (Bool.and_eq_true .. ▸ this.2).1
  · exact beq_iff_eq.mp (Bool.and_eq_true .. ▸ this.2).2

/-- Full behavior of select_unassigned_variable when some unassigned
slot has a domain of size at most the sentinel of the source: a slot of
minimal domain size among the unassigned ones is returned, and among
those of minimal size it has the largest degree. -/
theorem select_spec {cw : Crossword} {doms : Doms} {a : Assignment}
    (hex : ∃ v ∈ cw.vars, (lookupA a v).isNone = true ∧
      (doms v).length ≤ 10000000000) :
    ∃ w, selectUnassignedVariable cw doms a = some w ∧ w ∈ cw.vars ∧
      (lookupA a w).isNone = true ∧
      (∀ u ∈ cw.vars, (lookupA a u).isNone = true →
        (doms w).length ≤ (doms u).length) ∧
      (∀ u ∈ cw.vars, (lookupA a u).isNone = true →
        (doms u).length = (doms w).length → degree cw u ≤ degree cw w) := by
  obtain ⟨v0, hv0, hun0, hle0⟩ := hex
  have hmle : ∀ u ∈ cw.vars, (lookupA a u).isNone = true →
      minUn doms a cw.vars 10000000000 ≤ (doms u).length :=
    fun u hu hun => minUn_le_size doms a cw.vars 10000000000 u hu hun
  -- the filter list is nonempty
  have hfne : ∃ u, u ∈ cw.vars.filter (fun v => (lookupA a v).isNone &&
      ((doms v).length == minUn doms a cw.vars 10000000000)) := by
    rcases minUn_achieved doms a cw.vars 10000000000 with hsent | ⟨u, hu, hun, hsz⟩
    · refine ⟨v0, List.mem_filter.mpr ⟨hv0, ?_⟩⟩
      rw [hun0]
      have : (doms v0).length = minUn doms a cw.vars 10000000000 := by
        have := hmle v0 hv0 hun0
        omega
      rw [beq_iff_eq.mpr this]
      rfl
    · refine ⟨u, List.mem_filter.mpr ⟨hu, ?_⟩⟩
      rw [hun, beq_iff_eq.mpr hsz]
      rfl
  -- characterize membership in the filter list
  have hfmem : ∀ u, u ∈ cw.vars.filter (fun v => (lookupA a v).isNone &&
      ((doms v).length == minUn doms a cw.vars 10000000000)) ↔
      u ∈ cw.vars ∧ (lookupA a u).isNone = true ∧
        (doms u).length = minUn doms a cw.vars 10000000000 := by
    intro u
    rw [List.mem_filter]
    constructor
    · rintro ⟨h1, h2⟩
      exact ⟨h1, (Bool.and_eq_true .. ▸ h2).1,
        beq_iff_eq.mp (Bool.and_eq_true .. ▸ h2).2⟩
    · rintro ⟨h1, h2, h3⟩
      refine ⟨h1, ?_⟩
      rw [h2, beq_iff_eq.mpr h3]
      rfl
  -- the returned slot
  have hsel : ∃ w, selectUnassignedVariable cw doms a = some w ∧
      w ∈ cw.vars.filter (fun v => (lookupA a v).isNone &&
        ((doms v).length == minUn doms a cw.vars 10000000000)) ∧
      (∀ u ∈ cw.vars.filter (fun v => (lookupA a v).isNone &&
        ((doms v).length == minUn doms a cw.vars 10000000000)),
        degree cw u ≤ degree cw w) := by
    obtain ⟨u0, hu0⟩ := hfne
    unfold selectUnassignedVariable
    rw [selectLoop_run]
    cases hf : cw.vars.filter (fun v => (lookupA a v).isNone &&
        ((doms v).length == minUn doms a cw.vars 10000000000)) with
    | nil =>
      rw [hf] at hu0
      cases hu0
    | cons v vs =>
      cases vs with
      | nil =>
        refine ⟨v, rfl, List.mem_cons_self _ _, ?_⟩
        intro u hu
        rcases List.mem_cons.mp hu with rfl | hu
        · exact le_refl _
        · cases hu
      | cons v' vs' =>
        have hsorted := @pairwise_sortBy Var
          (fun u u' => degree cw u' < degree cw u)
          (fun u u' => degree cw u' ≤ degree cw u)
          (fun p q hpq => le_of_lt (by simpa using hpq))
          (fun p q hpq => by simpa using hpq)
          (fun p q t hpq hqt => le_trans hqt hpq)
          (v :: v' :: vs')
        have hnn : sortBy (fun u u' => degree cw u' < degree cw u)
            (v :: v' :: vs') ≠ [] := insBy_ne_nil
        refine ⟨_, rfl, ?_, ?_⟩
        · exact mem_sortBy.mp (headD_mem hnn v)
        · intro u hu
          have hu' : u ∈ sortBy (fun u u' => degree cw u' < degree cw u)
              (v :: v' :: vs') := mem_sortBy.mpr hu
          obtain ⟨z, zs, hzz⟩ := List.exists_cons_of_ne_nil hnn
          rw [hzz] at hu' ⊢
          rw [hzz, List.pairwise_cons] at hsorted
          rcases List.mem_cons.mp hu' with rfl | hu'
          · exact le_refl _
          · exact hsorted.1 u hu'
  obtain ⟨w, hw, hwmem, hwdeg⟩ := hsel
  obtain ⟨hw1, hw2, hw3⟩ := (hfmem w).mp hwmem
  refine ⟨w, hw, hw1, hw2, ?_, ?_⟩
  · intro u hu hun
    rw [hw3]
    exact hmle u hu hun
  · intro u hu hun hsz
    exact hwdeg u ((hfmem u).mpr ⟨hu, hun, by omega⟩)

theorem lookupA_append_self {a : Assignment} {v : Var} (h : lookupA a v = none)
    (w : Word) : lookupA (a ++ [(v, w)]) v = some w := by
  induction a with
  | nil => simp [lookupA]
  | cons p rest ih =>
    rw [lookupA] at h
    by_cases hp : p.1 = v
    · rw [if_pos hp] at h
      cases h
    · rw [if_neg hp] at h
      rw [List.cons_append, lookupA, if_neg hp]
      exact ih h

theorem lookupA_append_other {a : Assignment} {v u : Var} {w : Word}
    (h : v ≠ u) : lookupA (a ++ [(v, w)]) u = lookupA a u := by
  induction a with
  | nil => simp [lookupA, h]
  | cons p rest ih =>
    rw [List.cons_append, lookupA, lookupA]
    by_cases hp : p.1 = u
    · rw [if_pos hp, if_pos hp]
    · rw [if_neg hp, if_neg hp]
      exact ih

theorem keys_nodup_append {a : Assignment} {v : Var} {w : Word}
    (hnd : (a.map Prod.fst).Nodup) (h : lookupA a v = none) :
    (((a ++ [(v, w)]).map Prod.fst)).Nodup := by
  rw [List.map_append]
  rw [List.nodup_append]
  refine ⟨hnd, by simp, ?_⟩
  intro x hx hx'
  simp only [List.map_cons, List.map_nil, List.mem_singleton] at hx'
  subst hx'
  obtain ⟨p, hp, hpx⟩ := List.mem_map.mp hx
  exact (lookupA_eq_none.mp h) p hp hpx

/-- Unfolding of the Bool result of the consistency check. -/
theorem consistent_spec {cw : Crossword} {a : Assignment}
    (h : consistent cw a = true) :
    ∀ p ∈ a, p.2.length = cw.length p.1 ∧
      ∀ q ∈ a, p.1 ≠ q.1 → p.2 ≠ q.2 ∧
        (∀ i j, cw.overlaps p.1 q.1 = some (i, j) →
          p.2.getD i ' ' = q.2.getD j ' ') := by
  intro p hp
  have h1 := List.all_eq_true.mp h p hp
  rw [Bool.and_eq_true] at h1
  refine ⟨beq_iff_eq.mp h1.1, ?_⟩
  intro q hq hne
  have h2 := List.all_eq_true.mp h1.2 q hq
  rw [Bool.or_eq_true] at h2
  rcases h2 with h2 | h2
  · exact absurd (beq_iff_eq.mp h2) hne
  · rw [Bool.and_eq_true] at h2
    refine ⟨bne_iff_ne.mp h2.1, ?_⟩
    intro i j ho
    have h3 := h2.2
    rw [ho] at h3
    exact beq_iff_eq.mp (by simpa using h3)

/-- A partial assignment whose entries all agree with a global solution
passes the consistency check. -/
theorem consistent_of_solution {cw : Crossword} {s : Var → Word}
    (hs : isSolution cw s) {a : Assignment}
    (hent : ∀ p ∈ a, p.1 ∈ cw.vars ∧ p.2 = s p.1) :
    consistent cw a = true := by
  rw [consistent, List.all_eq_true]
  intro p hp
  obtain ⟨hp1, hp2⟩ := hent p hp
  rw [Bool.and_eq_true]
  constructor
  · rw [beq_iff_eq, hp2]
    exact hs.2.1 p.1 hp1
  · rw [List.all_eq_true]
    intro q hq
    obtain ⟨hq1, hq2⟩ := hent q hq
    rw [Bool.or_eq_true]
    by_cases hpq : p.1 = q.1
    · exact Or.inl (beq_iff_eq.mpr hpq)
    · right
      rw [Bool.and_eq_true]
      constructor
      · rw [bne_iff_ne, hp2, hq2]
        exact hs.2.2.1 p.1 hp1 q.1 hq1 hpq
      · cases ho : cw.overlaps p.1 q.1 with
        | none => rfl
        | some z =>
          obtain ⟨i, j⟩ := z
          have := hs.2.2.2 p.1 hp1 q.1 hq1 hpq i j ho
          rw [hp2, hq2]
          simpa using beq_iff_eq.mpr this

theorem assignmentComplete_false {cw : Crossword} {a : Assignment} {x : Var}
    (hx : x ∈ cw.vars) (hun : lookupA a x = none) :
    assignmentComplete cw a = false := by
  apply Bool.eq_false_iff.mpr
  intro hall
  have := List.all_eq_true.mp hall x hx
  rw [hun] at this
  exact Bool.false_ne_true this

theorem mem_orderDomainValues {cw : Crossword} {doms : Doms} {a : Assignment}
    {var : Var} {w : Word} :
    w ∈ orderDomainValues cw doms a var ↔ w ∈ doms var := mem_sortBy

theorem backtrack_zero (cw : Crossword) (doms : Doms) (a : Assignment) :
    backtrack cw 0 doms a = (none, a, doms) := rfl

theorem backtrack_succ (cw : Crossword) (fuel : Nat) (doms : Doms)
    (a : Assignment) :
    backtrack cw (fuel + 1) doms a =
      if assignmentComplete cw a then (some (some a), a, doms)
      else
        match selectUnassignedVariable cw doms a with
        | none => (none, a, doms)
        | some var =>
          tryWords cw (backtrack cw fuel) var doms a
            (orderDomainValues cw doms a var) := rfl

/-- The search never mutates the domain store: the store threaded out of
the candidate loop is the one threaded in. -/
theorem tryWords_frame {cw : Crossword} {bt : Doms → Assignment → BTRes}
    {var : Var} (hbt : ∀ d a', (bt d a').2.2 = d) :
    ∀ (ws : List Word) (doms : Doms) (a : Assignment),
      (tryWords cw bt var doms a ws).2.2 = doms := by
  intro ws
  induction ws with
  | nil => intro doms a; rfl
  | cons w ws ih =>
    intro doms a
    rw [tryWords]
    by_cases hc : consistent cw (dictInsert a var w) = true
    · rw [if_pos hc]
      have hd2 := hbt doms (dictInsert a var w)
      rcases hbb : bt doms (dictInsert a var w) with ⟨r0, a2, d2⟩
      rw [hbb] at hd2
      cases r0 with
      | none => exact hd2
      | some o =>
        cases o with
        | none =>
          show (tryWords cw bt var d2 (dictErase a2 var) ws).2.2 = doms
          rw [ih]
          exact hd2
        | some r => exact hd2
    · rw [if_neg hc]
      exact ih doms _

theorem backtrack_frame (cw : Crossword) :
    ∀ (fuel : Nat) (doms : Doms) (a : Assignment),
      (backtrack cw fuel doms a).2.2 = doms := by
  intro fuel
  induction fuel with
  | zero => intro doms a; rfl
  | succ fuel ih =>
    intro doms a
    rw [backtrack_succ]
    by_cases hc : assignmentComplete cw a = true
    · rw [if_pos hc]
    · rw [if_neg hc]
      cases hsel : selectUnassignedVariable cw doms a with
      | none => rfl
      | some var => exact tryWords_frame (fun d a' => ih d a') _ doms a

/-- Strict undo discipline for the candidate loop: if it ends with the
no-solution return, the assignment dict is back to its input value. -/
theorem tryWords_restore {cw : Crossword} {bt : Doms → Assignment → BTRes}
    {var : Var}
    (hbt : ∀ d a', (bt d a').1 = some none → (bt d a').2.1 = a') :
    ∀ (ws : List Word) (doms : Doms) (a : Assignment),
      lookupA a var = none →
      (tryWords cw bt var doms a ws).1 = some none →
      (tryWords cw bt var doms a ws).2.1 = a := by
  intro ws
  induction ws with
  | nil => intro doms a _ _; rfl
  | cons w ws ih =>
    intro doms a hun h
    rw [tryWords] at h ⊢
    by_cases hc : consistent cw (dictInsert a var w) = true
    · rw [if_pos hc] at h ⊢
      have hre := hbt doms (dictInsert a var w)
      rcases hbb : bt doms (dictInsert a var w) with ⟨r0, a2, d2⟩
      rw [hbb] at h hre
      cases r0 with
      | none => cases h
      | some o =>
        cases o with
        | none =>
          have ha2 : a2 = dictInsert a var w := hre rfl
          have herase : dictErase a2 var = a := by
            rw [ha2, dictInsert_of_none hun, dictErase_append_of_none hun]
          have h2 : (tryWords cw bt var d2 (dictErase a2 var) ws).1 = some none := h
          rw [herase] at h2
          show (tryWords cw bt var d2 (dictErase a2 var) ws).2.1 = a
          rw [herase]
          exact ih d2 a hun h2
        | some r => cases h
    · rw [if_neg hc] at h ⊢
      have herase : dictErase (dictInsert a var w) var = a := by
        rw [dictInsert_of_none hun, dictErase_append_of_none hun]
      rw [herase] at h ⊢
      exact ih doms a hun h

/-- Strict undo discipline for the search: a call that returns the
no-solution result leaves the assignment dict exactly as it received it. -/
theorem backtrack_restore (cw : Crossword) :
    ∀ (fuel : Nat) (doms : Doms) (a : Assignment),
      (backtrack cw fuel doms a).1 = some none →
      (backtrack cw fuel doms a).2.1 = a := by
  intro fuel
  induction fuel with
  | zero =>
    intro doms a h
    cases h
  | succ fuel ih =>
    intro doms a h
    rw [backtrack_succ] at h ⊢
    by_cases hc : assignmentComplete cw a = true
    · rw [if_pos hc] at h
      cases h
    · rw [if_neg hc] at h ⊢
      cases hsel : selectUnassignedVariable cw doms a with
      | none =>
        rw [hsel] at h
      | some var =>
        rw [hsel] at h
        have hun : lookupA a var = none :=
          Option.isNone_iff_eq_none.mp (select_mem hsel).2.1
        exact tryWords_restore (fun d a' => ih d a') _ doms a hun h

/-- Any assignment propagated up as a success was returned, at the
moment it was complete, by a call whose argument passed the consistency
check. -/
theorem tryWords_sound {cw : Crossword} {bt : Doms → Assignment → BTRes}
    {var : Var}
    (hbt : ∀ d a' r, consistent cw a' = true → (bt d a').1 = some (some r) →
      assignmentComplete cw r = true ∧ consistent cw r = true) :
    ∀ (ws : List Word) (doms : Doms) (a : Assignment) (r : Assignment),
      (tryWords cw bt var doms a ws).1 = some (some r) →
      assignmentComplete cw r = true ∧ consistent cw r = true := by
  intro ws
  induction ws with
  | nil =>
    intro doms a r h
    cases h
  | cons w ws ih =>
    intro doms a r h
    rw [tryWords] at h
    by_cases hc : consistent cw (dictInsert a var w) = true
    · rw [if_pos hc] at h
      rcases hbb : bt doms (dictInsert a var w) with ⟨r0, a2, d2⟩
      rw [hbb] at h
      cases r0 with
      | none => cases h
      | some o =>
        cases o with
        | none => exact ih d2 _ r h
        | some r' =>
          have heq : r' = r := by
            injection h with h'
            injection h' with h''
          subst heq
          exact hbt doms (dictInsert a var w) r' hc (by rw [hbb])
    · rw [if_neg hc] at h
      exact ih doms _ r h

/-- A success of the search on a consistent partial assignment is a
complete and consistent assignment. -/
theorem backtrack_sound (cw : Crossword) :
    ∀ (fuel : Nat) (doms : Doms) (a : Assignment) (r : Assignment),
      consistent cw a = true →
      (backtrack cw fuel doms a).1 = some (some r) →
      assignmentComplete cw r = true ∧ consistent cw r = true := by
  intro fuel
  induction fuel with
  | zero =>
    intro doms a r _ h
    cases h
  | succ fuel ih =>
    intro doms a r hcons h
    rw [backtrack_succ] at h
    by_cases hc : assignmentComplete cw a = true
    · rw [if_pos hc] at h
      injection h with h'
      injection h' with h''
      rw [← h'']
      exact ⟨hc, hcons⟩
    · rw [if_neg hc] at h
      cases hsel : selectUnassignedVariable cw doms a with
      | none =>
        rw [hsel] at h
        cases h
      | some var =>
        rw [hsel] at h
        exact tryWords_sound (fun d a' r' hc' h' => ih d a' r' hc' h') _ doms a r h

/-- The candidate loop cannot end in the no-solution return when the
word a surviving global solution assigns to var is among the candidates:
that branch is consistent and its recursive call cannot fail. -/
theorem tryWords_complete {cw : Crossword} {s : Var → Word}
    (hs : isSolution cw s) {bt : Doms → Assignment → BTRes} {var : Var}
    {doms : Doms} {a : Assignment}
    (hframe : ∀ d a', (bt d a').2.2 = d)
    (hrest : ∀ d a', (bt d a').1 = some none → (bt d a').2.1 = a')
    (hun : lookupA a var = none) (hvar : var ∈ cw.vars)
    (hent : ∀ p ∈ a, p.1 ∈ cw.vars ∧ p.2 = s p.1)
    (hfail : (bt doms (dictInsert a var (s var))).1 ≠ some none) :
    ∀ ws : List Word, s var ∈ ws →
      (tryWords cw bt var doms a ws).1 ≠ some none := by
  intro ws
  induction ws with
  | nil => intro hmem; cases hmem
  | cons w ws ih =>
    intro hmem h
    rw [tryWords] at h
    by_cases hc : consistent cw (dictInsert a var w) = true
    · rw [if_pos hc] at h
      have hfr := hframe doms (dictInsert a var w)
      have hre := hrest doms (dictInsert a var w)
      rcases hbb : bt doms (dictInsert a var w) with ⟨r0, a2, d2⟩
      rw [hbb] at h hfr hre
      cases r0 with
      | none => cases h
      | some o =>
        cases o with
        | some r => exact absurd h (by simp)
        | none =>
          rcases eq_or_ne w (s var) with rfl | hne
          · exact hfail (by rw [hbb])
          · have ha2 : a2 = dictInsert a var w := hre rfl
            have herase : dictErase a2 var = a := by
              rw [ha2, dictInsert_of_none hun, dictErase_append_of_none hun]
            have hfr2 : d2 = doms := hfr
            have h2 : (tryWords cw bt var d2 (dictErase a2 var) ws).1 =
                some none := h
            rw [herase, hfr2] at h2
            have hmem' : s var ∈ ws := by
              rcases List.mem_cons.mp hmem with e | hm
              · exact absurd e.symm hne
              · exact hm
            exact ih hmem' h2
    · rw [if_neg hc] at h
      rcases eq_or_ne w (s var) with rfl | hne
      · refine hc ?_
        rw [dictInsert_of_none hun]
        apply consistent_of_solution hs
        intro p hp
        rcases List.mem_append.mp hp with hp | hp
        · exact hent p hp
        · rw [List.mem_singleton] at hp
          subst hp
          exact ⟨hvar, rfl⟩
      · have herase : dictErase (dictInsert a var w) var = a := by
          rw [dictInsert_of_none hun, dictErase_append_of_none hun]
        rw [herase] at h
        have hmem' : s var ∈ ws := by
          rcases List.mem_cons.mp hmem with e | hm
          · exact absurd e.symm hne
          · exact hm
        exact ih hmem' h

/-- Completeness of the search: if a global solution is compatible with
the current domains and with the partial assignment, backtrack never
returns the no-solution result. -/
theorem backtrack_complete {cw : Crossword} {s : Var → Word}
    (hs : isSolution cw s) :
    ∀ (fuel : Nat) (doms : Doms) (a : Assignment),
      (∀ v ∈ cw.vars, s v ∈ doms v) →
      (∀ p ∈ a, p.1 ∈ cw.vars ∧ p.2 = s p.1) →
      (backtrack cw fuel doms a).1 ≠ some none := by
  intro fuel
  induction fuel with
  | zero =>
    intro doms a _ _ h
    cases h
  | succ fuel ih =>
    intro doms a hdoms hent h
    rw [backtrack_succ] at h
    by_cases hc : assignmentComplete cw a = true
    · rw [if_pos hc] at h
      exact absurd h (by simp)
    · rw [if_neg hc] at h
      cases hsel : selectUnassignedVariable cw doms a with
      | none =>
        rw [hsel] at h
        cases h
      | some var =>
        rw [hsel] at h
        obtain ⟨hvmem, hvun, -⟩ := select_mem hsel
        have hun : lookupA a var = none := Option.isNone_iff_eq_none.mp hvun
        refine tryWords_complete hs
          (fun d a' => backtrack_frame cw fuel d a')
          (fun d a' => backtrack_restore cw fuel d a')
          hun hvmem hent ?_ _ ?_ h
        · apply ih doms (dictInsert a var (s var)) hdoms
          intro p hp
          rw [dictInsert_of_none hun] at hp
          rcases List.mem_append.mp hp with hp | hp
          · exact hent p hp
          · rw [List.mem_singleton] at hp
            subst hp
            exact ⟨hvmem, rfl⟩
        · exact mem_orderDomainValues.mpr (hdoms var hvmem)

/-- When some slot of the crossword has an empty domain, the search on
the empty assignment fails immediately: the slot of minimal domain size
is selected, it has no candidate values, and the loop over an empty
candidate list returns the no-solution result at once. -/
theorem backtrack_empty {cw : Crossword} {doms : Doms} {x : Var}
    (hx : x ∈ cw.vars) (hd : doms x = []) (fuel : Nat) :
    backtrack cw (fuel + 1) doms [] = (some none, [], doms) := by
  rw [backtrack_succ]
  have hun : lookupA ([] : Assignment) x = none := rfl
  rw [if_neg (by rw [assignmentComplete_false hx hun]; exact Bool.false_ne_true)]
  have hex : ∃ v ∈ cw.vars, (lookupA ([] : Assignment) v).isNone = true ∧
      (doms v).length ≤ 10000000000 := ⟨x, hx, rfl, by rw [hd]; simp⟩
  obtain ⟨w, hw, hwmem, hwun, hwmin, -⟩ := select_spec hex
  rw [hw]
  have hdw : doms w = [] := by
    have h1 := hwmin x hx rfl
    rw [hd] at h1
    exact List.length_eq_zero.mp (Nat.le_zero.mp (by simpa using h1))
  have hord : orderDomainValues cw doms [] w = [] := by
    unfold orderDomainValues
    rw [hdw]
    rfl
  show tryWords cw (backtrack cw fuel) w doms []
    (orderDomainValues cw doms [] w) = (some none, [], doms)
  rw [hord]
  rfl

theorem allArcs_wf {cw : Crossword} :
    ∀ p ∈ allArcs cw, p.1 ∈ cw.vars ∧ p.2 ∈ cw.vars ∧ p.1 ≠ p.2 := by
  intro p hp
  obtain ⟨x, y⟩ := p
  rw [allArcs, List.mem_filter] at hp
  obtain ⟨hm, hne⟩ := hp
  have hm' := List.mem_product.mp hm
  exact ⟨hm'.1, hm'.2, by simpa using hne⟩

theorem mem_allArcs {cw : Crossword} {x y : Var} (hx : x ∈ cw.vars)
    (hy : y ∈ cw.vars) (hxy : x ≠ y) : (x, y) ∈ allArcs cw := by
  rw [allArcs, List.mem_filter]
  refine ⟨List.mem_product.mpr ⟨hx, hy⟩, by simpa using hxy⟩

/-- Node consistency keeps exactly the words of matching length. -/
theorem mem_enforceNodeConsistency {cw : Crossword} {doms : Doms} {v : Var}
    {w : Word} :
    w ∈ enforceNodeConsistency cw doms v ↔
      w ∈ doms v ∧ w.length = cw.length v := by
  show w ∈ (doms v).filter (fun w => w.length == cw.length v) ↔ _
  rw [List.mem_filter]
  constructor
  · rintro ⟨h1, h2⟩
    exact ⟨h1, beq_iff_eq.mp h2⟩
  · rintro ⟨h1, h2⟩
    exact ⟨h1, beq_iff_eq.mpr h2⟩

theorem solveT_eq (cw : Crossword) :
    solveT cw = ((backtrack cw (cw.vars.length + 1)
      (ac3 cw (enforceNodeConsistency cw (initialDomains cw)) (allArcs cw)).1
      []).1, true) := rfl

/-- C5: after enforce_node_consistency, a word is in a slot's domain iff
it was there before and its length equals the slot's length: every
remaining word has the slot's length, and no word of matching length was
removed. -/
theorem enforce_node_consistency_spec (cw : Crossword) (doms : Doms) (v : Var)
    (_hv : v ∈ cw.vars) (w : Word) :
    w ∈ enforceNodeConsistency cw doms v ↔
      w ∈ doms v ∧ w.length = cw.length v :=
  mem_enforceNodeConsistency

theorem enforce_node_consistency_spec_witness :
    ['a'] ∈ enforceNodeConsistency cwW (initialDomains cwW) 0 ↔
      ['a'] ∈ initialDomains cwW 0 ∧ (['a'] : Word).length = cwW.length 0 :=
  enforce_node_consistency_spec cwW (initialDomains cwW) 0 (by decide) ['a']

/-- C6: when x and y overlap at offsets (i, j), revise(x, y) keeps in
domain(x) exactly the words with a support in domain(y), touches no
other domain, and reports true iff at least one word was removed (had
no support); when x and y have no overlap, revise removes nothing and
reports false. -/
theorem revise_spec (cw : Crossword) (doms : Doms) (x y : Var) :
    (match cw.overlaps x y with
     | none =>
        (∀ v, (revise cw doms x y).1 v = doms v) ∧
          (revise cw doms x y).2 = false
     | some (i, j) =>
        (revise cw doms x y).1 x = (doms x).filter
          (fun w => (doms y).any (fun u => w.getD i ' ' == u.getD j ' ')) ∧
        (∀ v, v ≠ x → (revise cw doms x y).1 v = doms v) ∧
        ((revise cw doms x y).2 = true ↔
          ∃ w ∈ doms x, ∀ u ∈ doms y, w.getD i ' ' ≠ u.getD j ' ')) := by
  cases ho : cw.overlaps x y with
  | none =>
    refine ⟨fun v => ?_, ?_⟩
    · rw [revise_eq_none ho]
    · rw [revise_eq_none ho]
  | some p =>
    obtain ⟨i, j⟩ := p
    refine ⟨?_, fun v hv => revise_other hv, ?_⟩
    · rw [revise_eq_some ho]
      dsimp only
      rw [updD_same, reviseList_fst]
    · rw [revise_eq_some ho]
      dsimp only
      rw [reviseList_snd, List.any_eq_true]
      constructor
      · rintro ⟨w, hw, hbad⟩
        rw [Bool.not_eq_true'] at hbad
        refine ⟨w, hw, fun u hu he => ?_⟩
        have := List.any_eq_false.mp hbad u hu
        exact this (by simpa using he)
      · rintro ⟨w, hw, hbad⟩
        refine ⟨w, hw, ?_⟩
        rw [Bool.not_eq_true', List.any_eq_false]
        intro u hu hbe
        exact hbad u hu (by simpa using hbe)

/-- C9: the worklist loop of ac3 terminates on every input: for every
crossword, domain store and initial arc list some finite fuel makes
ac3Fuel return (reach an empty worklist or an early failure return). -/
theorem ac3_terminates (cw : Crossword) (doms : Doms)
    (arcs : List (Var × Var)) :
    ∃ fuel, (ac3Fuel cw fuel doms arcs).isSome = true :=
  ⟨ac3Bound cw doms arcs, by rw [ac3_eq_some cw doms arcs]; rfl⟩

/-- C8: the search phase never mutates the domain store: the store
handed back by any backtrack call (through its helpers, which only read
it) is exactly the one handed in, whether the call succeeds, fails or
crashes. -/
theorem backtrack_preserves_domains (cw : Crossword) (fuel : Nat)
    (doms : Doms) (a : Assignment) :
    (backtrack cw fuel doms a).2.2 = doms :=
  backtrack_frame cw fuel doms a

/-- C7: strict undo discipline: whenever backtrack returns the
no-solution result, the assignment dict at return equals the assignment
dict at entry: every tentative entry added inside was removed. -/
theorem backtrack_undo (cw : Crossword) (fuel : Nat) (doms : Doms)
    (a st : Assignment) (d' : Doms)
    (h : backtrack cw fuel doms a = (some none, st, d')) : st = a := by
  have h1 := backtrack_restore cw fuel doms a (by rw [h])
  rw [h] at h1
  exact h1

theorem backtrack_undo_witness :
    backtrack cwU2 3 dW [] = (some none, [], dW) ∧ ([] : Assignment) = [] :=
  ⟨rfl, backtrack_undo cwU2 3 dW [] [] dW rfl⟩

/-- C2: any assignment returned by solve is complete (every slot looked
up successfully) and globally consistent: entry words have their slot's
length, entries at distinct slots hold distinct words, and entries at
overlapping slots agree at the overlap offsets. -/
theorem solve_sound (cw : Crossword) (a : Assignment)
    (h : solve cw = some (some a)) :
    (∀ v ∈ cw.vars, (lookupA a v).isSome = true) ∧
    (∀ p ∈ a, p.2.length = cw.length p.1) ∧
    (∀ p ∈ a, ∀ q ∈ a, p.1 ≠ q.1 → p.2 ≠ q.2) ∧
    (∀ p ∈ a, ∀ q ∈ a, p.1 ≠ q.1 → ∀ i j,
      cw.overlaps p.1 q.1 = some (i, j) →
        p.2.getD i ' ' = q.2.getD j ' ') := by
  have h' : (backtrack cw (cw.vars.length + 1)
      (ac3 cw (enforceNodeConsistency cw (initialDomains cw)) (allArcs cw)).1
      []).1 = some (some a) := h
  obtain ⟨hcomp, hcons⟩ := backtrack_sound cw (cw.vars.length + 1) _ [] a rfl h'
  refine ⟨fun v hv => List.all_eq_true.mp hcomp v hv, ?_, ?_, ?_⟩
  · intro p hp
    exact (consistent_spec hcons p hp).1
  · intro p hp q hq hne
    exact ((consistent_spec hcons p hp).2 q hq hne).1
  · intro p hp q hq hne i j ho
    exact ((consistent_spec hcons p hp).2 q hq hne).2 i j ho

theorem solve_sound_witness :
    solve cwW = some (some [(0, ['a'])]) ∧
      ∀ v ∈ cwW.vars, (lookupA [(0, ['a'])] v).isSome = true :=
  ⟨by decide, (solve_sound cwW [(0, ['a'])] (by decide)).1⟩

/-- C3: if solve returns the no-solution result, then no complete
globally consistent assignment of vocabulary words to the slots exists:
node consistency and ac3 only remove words no solution uses, and the
backtracking search is exhaustive. -/
theorem solve_complete (cw : Crossword) (h : solve cw = some none) :
    ¬ ∃ s : Var → Word, isSolution cw s := by
  rintro ⟨s, hs⟩
  have h' : (backtrack cw (cw.vars.length + 1)
      (ac3 cw (enforceNodeConsistency cw (initialDomains cw)) (allArcs cw)).1
      []).1 = some none := h
  refine backtrack_complete hs (cw.vars.length + 1) _ []
    ?_ (fun p hp => absurd hp (List.not_mem_nil p)) h'
  intro v hv
  have h0 : ∀ u ∈ cw.vars, s u ∈ enforceNodeConsistency cw (initialDomains cw) u := by
    intro u hu
    rw [mem_enforceNodeConsistency]
    exact ⟨hs.1 u hu, hs.2.1 u hu⟩
  exact ac3Fuel_preserves hs (fun p hp => allArcs_wf p hp) h0
    (ac3_eq_some cw (enforceNodeConsistency cw (initialDomains cw))
      (allArcs cw)) v hv

theorem solve_complete_witness : ¬ ∃ s : Var → Word, isSolution cwU s :=
  solve_complete cwU (by decide)

/-- C4: after ac3 started on the default full arc set returns success,
the domains are at an arc-consistent fixed point: for every ordered
pair of slots with an overlap (i, j), every surviving word of the first
slot has a supporting word in the second slot agreeing at the offsets
(for crosswords whose overlap relation is symmetric and irreflexive on
the slots, as the grid geometry guarantees). -/
theorem ac3_fixedpoint (cw : Crossword) (doms : Doms)
    (hsym : symmCheck cw = true) (hirr : irreflCheck cw = true)
    (hsuc : (ac3 cw doms (allArcs cw)).2 = true) :
    ∀ x ∈ cw.vars, ∀ y ∈ cw.vars, ∀ i j, cw.overlaps x y = some (i, j) →
      ∀ w ∈ (ac3 cw doms (allArcs cw)).1 x,
        ∃ u ∈ (ac3 cw doms (allArcs cw)).1 y,
          w.getD i ' ' = u.getD j ' ' := by
  intro x hx y hy i j ho w hw
  by_cases hxy : x = y
  · subst hxy
    rw [irreflCheck_spec hirr x hx] at ho
    cases ho
  · have hrun := ac3_eq_some cw doms (allArcs cw)
    have hfuel : ac3Fuel cw (ac3Bound cw doms (allArcs cw)) doms (allArcs cw)
        = some ((ac3 cw doms (allArcs cw)).1, true) := by
      rw [hrun]
      exact congrArg some (Prod.ext rfl hsuc)
    exact ac3Fuel_fixedpoint (symmCheck_spec hsym)
      (fun p hp => (allArcs_wf p hp).2.2)
      (fun p hp q hq hpq => Or.inl (mem_allArcs hp hq hpq))
      hfuel x hx y hy hxy i j ho w hw

theorem ac3_fixedpoint_witness :
    ∃ u ∈ (ac3 cwV (initialDomains cwV) (allArcs cwV)).1 1,
      (['a'] : Word).getD 0 ' ' = u.getD 0 ' ' :=
  ac3_fixedpoint cwV (initialDomains cwV) (by decide) (by decide) (by decide)
    0 (by decide) 1 (by decide) 0 0 (by decide) ['a'] (by decide)

/-- C1 as stated is false on the code: on the instance cwU the ac3 call
made by solve reports failure, yet solveT records that the backtracking
search was invoked anyway, because solve discards the ac3 result. -/
theorem solve_skips_backtrack_counterexample :
    (ac3Fuel cwU 9 (enforceNodeConsistency cwU (initialDomains cwU))
      (allArcs cwU)).map Prod.snd = some false ∧ (solveT cwU).2 = true := by
  constructor
  · decide
  · rfl

/-- C1 amended: solve ignores the result of arc consistency and always
invokes backtracking; when ac3 reports failure some domain is empty, so
the invoked search fails at its first selection and solve still returns
the no-solution result. -/
theorem solve_after_ac3_failure (cw : Crossword) (f : Nat)
    (h : (ac3Fuel cw f (enforceNodeConsistency cw (initialDomains cw))
      (allArcs cw)).map Prod.snd = some false) :
    solveT cw = (some none, true) := by
  cases hre : ac3Fuel cw f (enforceNodeConsistency cw (initialDomains cw))
      (allArcs cw) with
  | none =>
    rw [hre] at h
    cases h
  | some r =>
    rw [hre] at h
    obtain ⟨d2, b⟩ := r
    injection h with h'
    subst h'
    have hrun := ac3_eq_some cw (enforceNodeConsistency cw (initialDomains cw))
      (allArcs cw)
    have hmax : ac3Fuel cw
        (max f (ac3Bound cw (enforceNodeConsistency cw (initialDomains cw))
          (allArcs cw)))
        (enforceNodeConsistency cw (initialDomains cw)) (allArcs cw)
        = some (d2, false) := ac3Fuel_mono (le_max_left _ _) hre
    have hmax2 : ac3Fuel cw
        (max f (ac3Bound cw (enforceNodeConsistency cw (initialDomains cw))
          (allArcs cw)))
        (enforceNodeConsistency cw (initialDomains cw)) (allArcs cw)
        = some (ac3 cw (enforceNodeConsistency cw (initialDomains cw))
          (allArcs cw)) := ac3Fuel_mono (le_max_right _ _) hrun
    rw [hmax] at hmax2
    injection hmax2 with heq
    obtain ⟨x, hx, hempty⟩ := ac3Fuel_false_empty
      (fun p hp => (allArcs_wf p hp).1) hre
    rw [solveT_eq, ← heq]
    have hbt := @backtrack_empty cw d2 x hx hempty cw.vars.length
    rw [hbt]

theorem solve_after_ac3_failure_witness : solveT cwU = (some none, true) :=
  solve_after_ac3_failure cwU 9 (by decide)

theorem bigDoms_len : (bigDoms 0).length = 10000000001 :=
  List.length_replicate _ _

theorem bigDoms_minUn : minUn bigDoms [] cwS.vars 10000000000 = 10000000000 := by
  show minUn bigDoms [] [0] 10000000000 = 10000000000
  rw [minUn,
    if_pos (show (lookupA ([] : Assignment) 0).isNone = true from rfl),
    minUn, bigDoms_len]
  omega

theorem bigDoms_cond : ((lookupA ([] : Assignment) 0).isNone &&
    ((bigDoms 0).length == 10000000000)) = false := by
  rw [bigDoms_len]
  decide

theorem bigDoms_filter : cwS.vars.filter (fun v => (lookupA [] v).isNone &&
    ((bigDoms v).length == minUn bigDoms [] cwS.vars 10000000000)) = [] := by
  rw [bigDoms_minUn]
  show List.filter _ [0] = []
  rw [List.filter_cons, bigDoms_cond, if_neg Bool.false_ne_true]
  rfl

theorem select_eq_none {cw : Crossword} {doms : Doms} {a : Assignment}
    (h : (selectLoop doms a cw.vars 10000000000 []).2 = []) :
    selectUnassignedVariable cw doms a = none := by
  unfold selectUnassignedVariable
  rw [h]

theorem select_none_bigDoms : selectUnassignedVariable cwS bigDoms [] = none := by
  apply select_eq_none
  rw [selectLoop_run]
  exact bigDoms_filter

/-- C10 as stated is false on the code: on the one-slot instance cwS
with a domain larger than the sentinel 10000000000, a slot is
unassigned, yet select_unassigned_variable returns no slot at all,
because the sentinel initialisation of the minimum skips every domain
strictly larger than it. -/
theorem select_sentinel_counterexample :
    0 ∈ cwS.vars ∧ lookupA [] 0 = none ∧
      selectUnassignedVariable cwS bigDoms [] = none :=
  ⟨by decide, rfl, select_none_bigDoms⟩

/-- C10 amended: whenever some unassigned slot has a domain of at most
10000000000 words (the sentinel of the source), select_unassigned_variable
returns an unassigned slot of minimal domain size among the unassigned
slots, and among those of minimal size one of largest degree. -/
theorem select_unassigned_variable_spec (cw : Crossword) (doms : Doms)
    (a : Assignment)
    (hex : ∃ v ∈ cw.vars, lookupA a v = none ∧
      (doms v).length ≤ 10000000000) :
    ∃ w, selectUnassignedVariable cw doms a = some w ∧ w ∈ cw.vars ∧
      lookupA a w = none ∧
      (∀ u ∈ cw.vars, lookupA a u = none →
        (doms w).length ≤ (doms u).length) ∧
      (∀ u ∈ cw.vars, lookupA a u = none →
        (doms u).length = (doms w).length →
        degree cw u ≤ degree cw w) := by
  obtain ⟨v, hv, hun, hle⟩ := hex
  obtain ⟨w, h1, h2, h3, h4, h5⟩ :=
    select_spec ⟨v, hv, Option.isNone_iff_eq_none.mpr hun, hle⟩
  exact ⟨w, h1, h2, Option.isNone_iff_eq_none.mp h3,
    fun u hu hun' => h4 u hu (Option.isNone_iff_eq_none.mpr hun'),
    fun u hu hun' hsz => h5 u hu (Option.isNone_iff_eq_none.mpr hun') hsz⟩

theorem select_unassigned_variable_spec_witness :
    ∃ w, selectUnassignedVariable cwV (initialDomains cwV) [] = some w ∧
      w ∈ cwV.vars ∧ lookupA [] w = none ∧
      (∀ u ∈ cwV.vars, lookupA [] u = none →
        (initialDomains cwV w).length ≤ (initialDomains cwV u).length) ∧
      (∀ u ∈ cwV.vars, lookupA [] u = none →
        (initialDomains cwV u).length = (initialDomains cwV w).length →
        degree cwV u ≤ degree cwV w) :=
  select_unassigned_variable_spec cwV (initialDomains cwV) []
    ⟨0, by decide, rfl, by decide⟩

end CrosswordCSP
